import Mathlib

/-!
Shallow embedding of the Gatekeeper component of `teos/src/gatekeeper.rs`
(rust-teos watchtower). Rust `HashMap`s are modelled as association lists
with unique keys, `u32` values as `Nat` with explicit `% 2^32` at every
point where the source performs a wrapping addition or an `as u32` cast,
`checked_add` as an explicit comparison against `u32::MAX`, fallible
operations as `Except`, and panicking paths (`unwrap` on `None`) as
`Option.none` results.
-/

set_option maxHeartbeats 1000000

/-- Mirrors Rust `u32` overflow arithmetic: values live in `[0, u32size)`. -/
def u32size : Nat := 4294967296

/-- Mirrors `u32::MAX`. -/
def u32MAX : Nat := 4294967295

/-- Opaque 33-byte user identifier; modelled as a natural number. -/
abbrev UserId := Nat

/-- Opaque 16-byte appointment identifier; modelled as a natural number. -/
abbrev UUID := Nat

/-- Association-list model of Rust `HashMap`. All maps reachable through the
Gatekeeper operations have pairwise distinct keys. -/
abbrev AMap (α β : Type) := List (α × β)

/-- Lookup, returning the value at the first occurrence of the key. -/
def mget {α β : Type} [DecidableEq α] : AMap α β → α → Option β
  | [], _ => none
  | (k, v) :: rest, a => if k = a then some v else mget rest a

/-- Insert or update: replaces the first binding of the key, appends otherwise.
Models `HashMap::insert`. -/
def mset {α β : Type} [DecidableEq α] : AMap α β → α → β → AMap α β
  | [], a, b => [(a, b)]
  | (k, v) :: rest, a, b => if k = a then (a, b) :: rest else (k, v) :: mset rest a b

/-- Delete every binding of the key. Models `HashMap::remove` (on maps with
unique keys it removes exactly one binding). -/
def mdel {α β : Type} [DecidableEq α] : AMap α β → α → AMap α β
  | [], _ => []
  | (k, v) :: rest, a => if k = a then mdel rest a else (k, v) :: mdel rest a

/-- Delete a list of keys; models a `for` loop of `HashMap::remove` calls. -/
def mdelAll {α β : Type} [DecidableEq α] (m : AMap α β) (ks : List α) : AMap α β :=
  ks.foldl mdel m

/-- Keys of a map, in storage order. -/
def mkeys {α β : Type} (m : AMap α β) : List α := m.map Prod.fst

/-- The keys are pairwise distinct. Holds for every map built by the
Gatekeeper operations from the empty map. -/
abbrev NodupKeys {α β : Type} (m : AMap α β) : Prop := (m.map Prod.fst).Nodup

/-- Sum of the values of a map; used for the slot-accounting invariant. -/
def apptSum (m : AMap UUID Nat) : Nat := (m.map Prod.snd).sum

/-- Minimum of a list of naturals. Models sorting the cache keys and taking
the first element, as `update_outdated_users_cache` does. -/
def listMin : List Nat → Option Nat
  | [] => none
  | x :: xs =>
    match listMin xs with
    | none => some x
    | some y => some (min x y)

/-- Mirror of `UserInfo` in `gatekeeper.rs`: available slots, expiry height,
and the appointment-id to slot-count map. -/
structure UserInfo where
  available_slots : Nat
  subscription_expiry : Nat
  appointments : AMap UUID Nat
deriving Repr, DecidableEq

/-- Mirror of `UserInfo::new`. -/
def UserInfo.new (available_slots subscription_expiry : Nat) : UserInfo :=
  ⟨available_slots, subscription_expiry, []⟩

/-- Mirror of the `NotEnoughSlots` error type. -/
inductive NotEnoughSlots where
  | mk
deriving Repr, DecidableEq

/-- Mirror of the `MaxSlotsReached` error type. -/
inductive MaxSlotsReached where
  | mk
deriving Repr, DecidableEq

/-- Mirror of `RegistrationReceipt` as constructed by `add_update_user`:
`(user_id, available_slots, subscription_expiry)`. -/
structure RegistrationReceipt where
  user_id : UserId
  available_slots : Nat
  subscription_expiry : Nat
deriving Repr, DecidableEq

/-- Mirror of the `Gatekeeper` state. `height` is
`last_known_block_header.height`; the three configuration fields follow the
source; `dbm` models the durable store as a map from users to their stored
record. The store interface (`store_user` failing on an existing key,
`update_user` upserting, `remove_user` deleting) is modelled from the spec,
since the DBM implementation is not part of this tree. -/
structure Gatekeeper where
  height : Nat
  subscription_slots : Nat
  subscription_duration : Nat
  expiry_delta : Nat
  registered_users : AMap UserId UserInfo
  outdated_users_cache : AMap Nat (AMap UserId (List UUID))
  dbm : AMap UserId UserInfo
deriving Repr, DecidableEq

/-- Mirror of `Gatekeeper::new`: empty user map, empty cache, given config.
The durable store starts empty as well. -/
def Gatekeeper.init (height subscription_slots subscription_duration expiry_delta : Nat) :
    Gatekeeper :=
  ⟨height, subscription_slots, subscription_duration, expiry_delta, [], [], []⟩

/-- Modelled from the spec: `compute_appointment_slots` lives in
`extended_appointment.rs`, which is not part of this tree; the spec defines
the slot cost as the ceiling of `len / ENCRYPTED_BLOB_MAX_SIZE`. `blobMax`
stands for the domain constant `ENCRYPTED_BLOB_MAX_SIZE` (defined in
`teos_common`, also not in this tree), so it is threaded as a parameter. -/
def compute_appointment_slots (len blobMax : Nat) : Nat :=
  (len + blobMax - 1) / blobMax

/-- Mirror of `Gatekeeper::add_update_user`. Returns the pair of the result
and the post-state; on error the state is returned unchanged, exactly as the
early-return in the source leaves it. `none` models the `unwrap` panic when
`store_user` fails because the user already has a durable record. -/
def add_update_user (gk : Gatekeeper) (uid : UserId) :
    Option (Except MaxSlotsReached RegistrationReceipt × Gatekeeper) :=
  let block_count := gk.height
  match mget gk.registered_users uid with
  | some info =>
    if info.available_slots + gk.subscription_slots ≤ u32MAX then
      let info2 : UserInfo :=
        ⟨info.available_slots + gk.subscription_slots,
         (block_count + gk.subscription_duration) % u32size,
         info.appointments⟩
      some (Except.ok ⟨uid, info2.available_slots, info2.subscription_expiry⟩,
        { gk with registered_users := mset gk.registered_users uid info2,
                  dbm := mset gk.dbm uid info2 })
    else
      some (Except.error MaxSlotsReached.mk, gk)
  | none =>
    let info : UserInfo :=
      UserInfo.new gk.subscription_slots ((block_count + gk.subscription_duration) % u32size)
    match mget gk.dbm uid with
    | some _ => none
    | none =>
      some (Except.ok ⟨uid, info.available_slots, info.subscription_expiry⟩,
        { gk with registered_users := mset gk.registered_users uid info,
                  dbm := mset gk.dbm uid info })

/-- Mirror of `Gatekeeper::add_update_appointment`. `len` is the length of
the encrypted blob of the appointment argument, the only datum the function
reads from it. `none` models the `unwrap` panic when the user is not
registered. The new slot count is computed in signed space and cast back,
exactly as `(available_slots as i64 - diff) as u32`. -/
def add_update_appointment (gk : Gatekeeper) (uid : UserId) (uuid : UUID)
    (len blobMax : Nat) :
    Option (Except NotEnoughSlots Nat × Gatekeeper) :=
  match mget gk.registered_users uid with
  | none => none
  | some info =>
    let used_slots := (mget info.appointments uuid).getD 0
    let required_slots := compute_appointment_slots len blobMax
    let diff : Int := (required_slots : Int) - (used_slots : Int)
    if diff ≤ (info.available_slots : Int) then
      let newSlots := ((info.available_slots : Int) - diff).toNat % u32size
      let info2 : UserInfo :=
        ⟨newSlots, info.subscription_expiry, mset info.appointments uuid required_slots⟩
      some (Except.ok newSlots,
        { gk with registered_users := mset gk.registered_users uid info2,
                  dbm := mset gk.dbm uid info2 })
    else
      some (Except.error NotEnoughSlots.mk, gk)

/-- Mirror of `Gatekeeper::get_outdated_users`: cache hit returns the cached
entry; otherwise the registered users whose wrapped `subscription_expiry +
expiry_delta` equals the queried height are collected with their full
appointment-id lists. The function reads state only, as the source does. -/
def get_outdated_users (gk : Gatekeeper) (block_height : Nat) : AMap UserId (List UUID) :=
  match mget gk.outdated_users_cache block_height with
  | some users => users
  | none =>
    gk.registered_users.filterMap (fun p =>
      if block_height = (p.2.subscription_expiry + gk.expiry_delta) % u32size then
        some (p.1, p.2.appointments.map Prod.fst)
      else none)

/-- Mirror of `Gatekeeper::update_outdated_users_cache`. `cacheSize` stands
for the domain constant `OUTDATED_USERS_CACHE_SIZE_BLOCKS` (defined in
`teos_common`, not in this tree), threaded as a parameter. Returns the map of
newly outdated users together with the post-state. -/
def update_outdated_users_cache (gk : Gatekeeper) (block_height cacheSize : Nat) :
    AMap UserId (List UUID) × Gatekeeper :=
  if (mget gk.outdated_users_cache block_height).isSome then
    ([], gk)
  else
    let outdated_users := get_outdated_users gk block_height
    let c1 := mset gk.outdated_users_cache block_height outdated_users
    if cacheSize < c1.length then
      match listMin (c1.map Prod.fst) with
      | none => (outdated_users, { gk with outdated_users_cache := c1 })
      | some first =>
        let removed := (mget c1 first).getD []
        (outdated_users,
          { gk with outdated_users_cache := mdel c1 first,
                    dbm := mdelAll gk.dbm (removed.map Prod.fst) })
    else
      (outdated_users, { gk with outdated_users_cache := c1 })

/-- One iteration of the first loop of `delete_appointments`: de-link the
appointment from its user (refunding the slots with the wrapping `+=` of the
source) and record the user as updated. Accumulator: current user map and
the list of updated users. -/
def delApptStep (acc : AMap UserId UserInfo × List UserId) (p : UUID × UserId) :
    AMap UserId UserInfo × List UserId :=
  match mget acc.1 p.2 with
  | none => acc
  | some info =>
    match mget info.appointments p.1 with
    | none => (mset acc.1 p.2 info, p.2 :: acc.2)
    | some x =>
      (mset acc.1 p.2
        ⟨(info.available_slots + x) % u32size, info.subscription_expiry,
         mdel info.appointments p.1⟩,
       p.2 :: acc.2)

/-- Mirror of `Gatekeeper::delete_appointments`: de-link each appointment
from its user, then persist every updated user to the durable store. -/
def delete_appointments (gk : Gatekeeper) (apps : List (UUID × UserId)) : Gatekeeper :=
  let acc := apps.foldl delApptStep (gk.registered_users, [])
  let dbm2 := acc.2.foldl (fun db uid =>
    match mget acc.1 uid with
    | some info => mset db uid info
    | none => db) gk.dbm
  { gk with registered_users := acc.1, dbm := dbm2 }

/-- Mirror of `Gatekeeper::block_connected` (`chain::Listen`): update the
outdated-users cache at the new height and drop the returned users from
`registered_users`. The source does not advance the stored header here. -/
def block_connected (gk : Gatekeeper) (height cacheSize : Nat) : Gatekeeper :=
  let r := update_outdated_users_cache gk height cacheSize
  { r.2 with registered_users := mdelAll r.2.registered_users (r.1.map Prod.fst) }

/-- The Gatekeeper operations a client or the chain listener can invoke,
used to define reachable states. -/
inductive Op where
  | regUser (uid : UserId)
  | addAppt (uid : UserId) (uuid : UUID) (len : Nat)
  | delAppts (apps : List (UUID × UserId))
  | cacheUpd (h : Nat)
  | blockConn (h : Nat)
deriving Repr, DecidableEq

/-- The three client-facing mutators named by the slot-accounting claims. -/
def Op.isBasic : Op → Prop
  | .regUser _ => True
  | .addAppt _ _ _ => True
  | .delAppts _ => True
  | .cacheUpd _ => False
  | .blockConn _ => False

instance : DecidablePred Op.isBasic := fun op => by
  cases op <;> simp [Op.isBasic] <;> infer_instance

/-- Operational step: apply one operation, keeping the pre-state when the
operation fails (the source early-returns) or panics (`none`). -/
def step (blobMax cacheSize : Nat) (gk : Gatekeeper) : Op → Gatekeeper
  | .regUser uid =>
    match add_update_user gk uid with
    | some (_, gk2) => gk2
    | none => gk
  | .addAppt uid uuid len =>
    match add_update_appointment gk uid uuid len blobMax with
    | some (_, gk2) => gk2
    | none => gk
  | .delAppts apps => delete_appointments gk apps
  | .cacheUpd h => (update_outdated_users_cache gk h cacheSize).2
  | .blockConn h => block_connected gk h cacheSize

/-- Run a list of operations from a state. -/
def runTrace (blobMax cacheSize : Nat) (gk : Gatekeeper) (ops : List Op) : Gatekeeper :=
  ops.foldl (step blobMax cacheSize) gk

/-- Ghost-instrumented step: additionally tracks, per user, the total slots
ever granted (`subscription_slots` per successful registration or renewal). -/
def stepG (blobMax cacheSize : Nat) (s : Gatekeeper × (UserId → Nat)) (op : Op) :
    Gatekeeper × (UserId → Nat) :=
  match op with
  | .regUser uid =>
    match add_update_user s.1 uid with
    | some (Except.ok _, gk2) =>
      (gk2, fun u => if u = uid then s.2 u + s.1.subscription_slots else s.2 u)
    | some (Except.error _, gk2) => (gk2, s.2)
    | none => s
  | _ => (step blobMax cacheSize s.1 op, s.2)

/-- Run a list of operations with ghost granted-slot accounting. -/
def runTraceG (blobMax cacheSize : Nat) (s : Gatekeeper × (UserId → Nat)) (ops : List Op) :
    Gatekeeper × (UserId → Nat) :=
  ops.foldl (stepG blobMax cacheSize) s

/-- Per-user slot-accounting invariant carried through traces: keys are
unique, every registered user satisfies the mod-2^32 conservation identity
against the ghost granted count, and never-registered users have no grant. -/
def RegsInv (regs : AMap UserId UserInfo) (g : UserId → Nat) : Prop :=
  NodupKeys regs ∧
  (∀ uid info, mget regs uid = some info →
     NodupKeys info.appointments ∧
     (info.available_slots + apptSum info.appointments) % u32size = g uid % u32size) ∧
  (∀ uid, mget regs uid = none → g uid = 0)

/-- Range invariant: every registered user's stored slot count fits in u32. -/
def SlotsLe (regs : AMap UserId UserInfo) : Prop :=
  ∀ uid info, mget regs uid = some info → info.available_slots ≤ u32MAX

section AMapLemmas

variable {α β γ : Type} [DecidableEq α]

theorem mget_mset_self (m : AMap α β) (a : α) (b : β) :
    mget (mset m a b) a = some b := by
  induction m with
  | nil => simp [mset, mget]
  | cons p rest ih =>
    obtain ⟨k, v⟩ := p
    by_cases h : k = a
    · simp [mset, h, mget]
    · simp [mset, h, mget, ih]

theorem mget_mset_ne (m : AMap α β) (a c : α) (b : β) (h : a ≠ c) :
    mget (mset m a b) c = mget m c := by
  induction m with
  | nil => simp [mset, mget, h]
  | cons p rest ih =>
    obtain ⟨k, v⟩ := p
    by_cases hk : k = a
    · subst hk
      simp [mset, mget, h]
    · simp [mset, hk, mget, ih]

theorem mget_mdel_self (m : AMap α β) (a : α) :
    mget (mdel m a) a = none := by
  induction m with
  | nil => simp [mdel, mget]
  | cons p rest ih =>
    obtain ⟨k, v⟩ := p
    by_cases h : k = a
    · simp [mdel, h, ih]
    · simp [mdel, h, mget, ih]

theorem mget_mdel_ne (m : AMap α β) (a c : α) (h : a ≠ c) :
    mget (mdel m a) c = mget m c := by
  induction m with
  | nil => simp [mdel]
  | cons p rest ih =>
    obtain ⟨k, v⟩ := p
    by_cases hk : k = a
    · subst hk
      simp [mdel, mget, h, ih]
    · simp [mdel, hk, mget, ih]

theorem mget_eq_none_iff (m : AMap α β) (a : α) :
    mget m a = none ↔ a ∉ m.map Prod.fst := by
  induction m with
  | nil => simp [mget]
  | cons p rest ih =>
    obtain ⟨k, v⟩ := p
    by_cases h : k = a
    · simp [mget, h]
    · simp [mget, h, ih, Ne.symm h]

theorem mget_mdelAll (m : AMap α β) (ks : List α) (a : α) :
    mget (mdelAll m ks) a = if a ∈ ks then none else mget m a := by
  induction ks generalizing m with
  | nil => simp [mdelAll]
  | cons k ks ih =>
    show mget (mdelAll (mdel m k) ks) a = _
    rw [ih]
    by_cases hks : a ∈ ks
    · simp [hks]
    · by_cases hak : a = k
      · subst hak
        simp [hks, mget_mdel_self]
      · simp [hks, hak, mget_mdel_ne m k a (Ne.symm hak)]

theorem mget_some_of_mdelAll {m : AMap α β} {ks : List α} {a : α} {b : β}
    (h : mget (mdelAll m ks) a = some b) : mget m a = some b ∧ a ∉ ks := by
  rw [mget_mdelAll] at h
  by_cases hks : a ∈ ks
  · simp [hks] at h
  · simp [hks] at h
    exact ⟨h, hks⟩

theorem mem_keys_mset (m : AMap α β) (a c : α) (b : β) :
    c ∈ (mset m a b).map Prod.fst ↔ c = a ∨ c ∈ m.map Prod.fst := by
  induction m with
  | nil => simp [mset]
  | cons p rest ih =>
    obtain ⟨k, v⟩ := p
    by_cases h : k = a
    · subst h
      simp [mset]
    · simp [mset, h, ih]
      tauto

theorem mem_keys_mdel {m : AMap α β} {a c : α}
    (h : c ∈ (mdel m a).map Prod.fst) : c ∈ m.map Prod.fst := by
  induction m with
  | nil => simp [mdel] at h
  | cons p rest ih =>
    obtain ⟨k, v⟩ := p
    by_cases hk : k = a
    · simp only [mdel, if_pos hk] at h
      simp only [List.map_cons, List.mem_cons]
      exact Or.inr (ih h)
    · simp only [mdel, if_neg hk, List.map_cons, List.mem_cons] at h
      simp only [List.map_cons, List.mem_cons]
      rcases h with h | h
      · exact Or.inl h
      · exact Or.inr (ih h)

theorem nodup_mset {m : AMap α β} (a : α) (b : β) (h : NodupKeys m) :
    NodupKeys (mset m a b) := by
  induction m with
  | nil => simp [mset, NodupKeys]
  | cons p rest ih =>
    obtain ⟨k, v⟩ := p
    simp only [NodupKeys, List.map_cons, List.nodup_cons] at h
    by_cases hk : k = a
    · subst hk
      have hms : mset ((k, v) :: rest) k b = (k, b) :: rest := by simp [mset]
      rw [hms]
      simp only [NodupKeys, List.map_cons, List.nodup_cons]
      exact h
    · have h2 := ih h.2
      simp only [mset, if_neg hk, NodupKeys, List.map_cons, List.nodup_cons]
      refine ⟨fun hc => ?_, h2⟩
      rcases (mem_keys_mset rest a k b).mp hc with hc | hc
      · exact hk hc
      · exact h.1 hc

theorem nodup_mdel {m : AMap α β} (a : α) (h : NodupKeys m) :
    NodupKeys (mdel m a) := by
  induction m with
  | nil => simp [mdel, NodupKeys]
  | cons p rest ih =>
    obtain ⟨k, v⟩ := p
    simp only [NodupKeys, List.map_cons, List.nodup_cons] at h
    by_cases hk : k = a
    · simp only [mdel, if_pos hk]
      exact ih h.2
    · simp only [mdel, if_neg hk, NodupKeys, List.map_cons, List.nodup_cons]
      refine ⟨fun hc => h.1 (mem_keys_mdel hc), ih h.2⟩

theorem mdel_eq_of_not_mem {m : AMap α β} {a : α} (h : a ∉ m.map Prod.fst) :
    mdel m a = m := by
  induction m with
  | nil => simp [mdel]
  | cons p rest ih =>
    obtain ⟨k, v⟩ := p
    simp only [List.map_cons, List.mem_cons] at h
    push_neg at h
    have hne : ¬ k = a := fun hk => h.1 hk.symm
    simp only [mdel, if_neg hne]
    rw [ih h.2]

theorem mset_mget_self {m : AMap α β} {a : α} {b : β} (h : mget m a = some b) :
    mset m a b = m := by
  induction m with
  | nil => simp [mget] at h
  | cons p rest ih =>
    obtain ⟨k, v⟩ := p
    by_cases hk : k = a
    · subst hk
      simp [mget] at h
      simp [mset, h]
    · simp [mget, hk] at h
      simp [mset, hk, ih h]

theorem length_mset_none {m : AMap α β} {a : α} (b : β) (h : mget m a = none) :
    (mset m a b).length = m.length + 1 := by
  induction m with
  | nil => simp [mset]
  | cons p rest ih =>
    obtain ⟨k, v⟩ := p
    by_cases hk : k = a
    · simp [mget, hk] at h
    · simp [mget, hk] at h
      simp [mset, hk, ih h]

theorem length_mdel_le (m : AMap α β) (a : α) :
    (mdel m a).length ≤ m.length := by
  induction m with
  | nil => simp [mdel]
  | cons p rest ih =>
    obtain ⟨k, v⟩ := p
    by_cases hk : k = a
    · simp [mdel, hk]
      omega
    · simp [mdel, hk]
      omega

theorem length_mdel_lt {m : AMap α β} {a : α} (h : a ∈ m.map Prod.fst) :
    (mdel m a).length < m.length := by
  induction m with
  | nil => simp at h
  | cons p rest ih =>
    obtain ⟨k, v⟩ := p
    by_cases hk : k = a
    · have := length_mdel_le rest a
      simp only [mdel, if_pos hk, List.length_cons]
      omega
    · simp only [List.map_cons, List.mem_cons] at h
      rcases h with h | h
      · exact absurd h.symm hk
      · have := ih h
        simp only [mdel, if_neg hk, List.length_cons]
        omega

theorem listMin_eq_none_iff (l : List Nat) : listMin l = none ↔ l = [] := by
  cases l with
  | nil => simp [listMin]
  | cons x xs =>
    simp [listMin]
    cases listMin xs <;> simp

theorem listMin_mem {l : List Nat} {k : Nat} (h : listMin l = some k) : k ∈ l := by
  induction l generalizing k with
  | nil => simp [listMin] at h
  | cons x xs ih =>
    simp [listMin] at h
    cases hm : listMin xs with
    | none =>
      rw [hm] at h
      simp at h
      simp [h]
    | some y =>
      rw [hm] at h
      simp at h
      rcases le_total x y with hxy | hxy
      · simp [min_eq_left hxy] at h
        simp [h]
      · simp [min_eq_right hxy] at h
        right
        rw [← h]
        exact ih hm

theorem listMin_le {l : List Nat} {k : Nat} (h : listMin l = some k) :
    ∀ x ∈ l, k ≤ x := by
  induction l generalizing k with
  | nil => simp
  | cons x xs ih =>
    rw [listMin] at h
    cases hm : listMin xs with
    | none =>
      have hxs : xs = [] := (listMin_eq_none_iff xs).mp hm
      rw [hm] at h
      simp only [Option.some.injEq] at h
      subst hxs
      subst h
      simp
    | some y =>
      rw [hm] at h
      simp only [Option.some.injEq] at h
      intro z hz
      rw [List.mem_cons] at hz
      rcases hz with hz | hz
      · rw [hz, ← h]
        exact min_le_left x y
      · rw [← h]
        exact le_trans (min_le_right x y) (ih hm z hz)

theorem apptSum_mset_none {m : AMap UUID Nat} {k : UUID} (v : Nat)
    (h : mget m k = none) : apptSum (mset m k v) = apptSum m + v := by
  induction m with
  | nil => simp [mset, apptSum]
  | cons p rest ih =>
    obtain ⟨k1, v1⟩ := p
    by_cases hk : k1 = k
    · simp [mget, hk] at h
    · simp [mget, hk] at h
      simp [mset, hk, apptSum] at ih ⊢
      rw [ih h]
      omega

theorem apptSum_mset_some {m : AMap UUID Nat} {k : UUID} {x : Nat} (v : Nat)
    (h : mget m k = some x) : apptSum (mset m k v) + x = apptSum m + v := by
  induction m with
  | nil => simp [mget] at h
  | cons p rest ih =>
    obtain ⟨k1, v1⟩ := p
    by_cases hk : k1 = k
    · subst hk
      simp [mget] at h
      subst h
      simp [mset, apptSum]
      omega
    · simp [mget, hk] at h
      simp [mset, hk, apptSum] at ih ⊢
      have := ih h
      omega

theorem apptSum_mdel_some {m : AMap UUID Nat} {k : UUID} {x : Nat}
    (hnd : NodupKeys m) (h : mget m k = some x) :
    apptSum (mdel m k) + x = apptSum m := by
  induction m with
  | nil => simp [mget] at h
  | cons p rest ih =>
    obtain ⟨k1, v1⟩ := p
    simp only [NodupKeys, List.map_cons, List.nodup_cons] at hnd
    by_cases hk : k1 = k
    · subst hk
      simp [mget] at h
      subst h
      have hrest : mdel rest k1 = rest := mdel_eq_of_not_mem hnd.1
      simp [mdel, hrest, apptSum]
      omega
    · simp [mget, hk] at h
      simp only [mdel, if_neg hk, apptSum, List.map_cons, List.sum_cons]
      have := ih hnd.2 h
      simp only [apptSum] at this
      omega

end AMapLemmas

section FilterMapLemmas

variable {α β γ : Type} [DecidableEq α]

theorem mget_filterMap_of_none {m : AMap α β} (P : β → Prop) [DecidablePred P] (f : β → γ)
    {a : α} (h : mget m a = none) :
    mget (m.filterMap fun p => if P p.2 then some (p.1, f p.2) else none) a = none := by
  induction m with
  | nil => simp [mget]
  | cons p rest ih =>
    obtain ⟨k, v⟩ := p
    by_cases hk : k = a
    · simp [mget, hk] at h
    · simp [mget, hk] at h
      by_cases hp : P v
      · simp [List.filterMap_cons, hp, mget, hk, ih h]
      · simp [List.filterMap_cons, hp, ih h]

theorem mget_filterMap_of_some {m : AMap α β} (P : β → Prop) [DecidablePred P] (f : β → γ)
    {a : α} {v : β} (hnd : NodupKeys m) (h : mget m a = some v) :
    mget (m.filterMap fun p => if P p.2 then some (p.1, f p.2) else none) a =
      if P v then some (f v) else none := by
  induction m with
  | nil => simp [mget] at h
  | cons p rest ih =>
    obtain ⟨k, v1⟩ := p
    simp only [NodupKeys, List.map_cons, List.nodup_cons] at hnd
    by_cases hk : k = a
    · subst hk
      simp [mget] at h
      subst h
      have hrest : mget rest k = none := by
        rw [mget_eq_none_iff]
        exact hnd.1
      by_cases hp : P v1
      · simp [List.filterMap_cons, hp, mget]
      · simp [List.filterMap_cons, hp, mget_filterMap_of_none P f hrest]
    · simp [mget, hk] at h
      by_cases hp : P v1
      · simp [List.filterMap_cons, hp, mget, hk, ih hnd.2 h]
      · simp [List.filterMap_cons, hp, ih hnd.2 h]

theorem mem_keys_filterMap {m : AMap α β} (P : β → Prop) [DecidablePred P] (f : β → γ)
    {a : α} {v : β} (h : mget m a = some v) (hp : P v) :
    a ∈ (m.filterMap fun p => if P p.2 then some (p.1, f p.2) else none).map Prod.fst := by
  induction m with
  | nil => simp [mget] at h
  | cons p rest ih =>
    obtain ⟨k, v1⟩ := p
    by_cases hk : k = a
    · subst hk
      simp [mget] at h
      subst h
      simp [List.filterMap_cons, hp]
    · simp [mget, hk] at h
      by_cases hp1 : P v1
      · simp only [List.filterMap_cons]
        have hred : (if P v1 then some (k, f v1) else none) = some (k, f v1) := by
          simp [hp1]
        simp only [hred, List.map_cons, List.mem_cons]
        exact Or.inr (ih h)
      · simp only [List.filterMap_cons]
        have hred : (if P v1 then some (k, f v1) else none) = none := by
          simp [hp1]
        simp only [hred]
        exact ih h

end FilterMapLemmas

section FrameLemmas

theorem auu_frame (gk : Gatekeeper) (uid : UserId)
    (r : Except MaxSlotsReached RegistrationReceipt × Gatekeeper)
    (h : add_update_user gk uid = some r) :
    r.2.height = gk.height ∧ r.2.subscription_slots = gk.subscription_slots ∧
    r.2.subscription_duration = gk.subscription_duration ∧
    r.2.expiry_delta = gk.expiry_delta ∧
    r.2.outdated_users_cache = gk.outdated_users_cache := by
  simp only [add_update_user] at h
  split at h
  · split at h
    · simp only [Option.some.injEq] at h
      subst h
      exact ⟨rfl, rfl, rfl, rfl, rfl⟩
    · simp only [Option.some.injEq] at h
      subst h
      exact ⟨rfl, rfl, rfl, rfl, rfl⟩
  · split at h
    · exact absurd h (by simp)
    · simp only [Option.some.injEq] at h
      subst h
      exact ⟨rfl, rfl, rfl, rfl, rfl⟩

theorem aua_frame (gk : Gatekeeper) (uid : UserId) (uuid : UUID) (len blobMax : Nat)
    (r : Except NotEnoughSlots Nat × Gatekeeper)
    (h : add_update_appointment gk uid uuid len blobMax = some r) :
    r.2.height = gk.height ∧ r.2.subscription_slots = gk.subscription_slots ∧
    r.2.subscription_duration = gk.subscription_duration ∧
    r.2.expiry_delta = gk.expiry_delta ∧
    r.2.outdated_users_cache = gk.outdated_users_cache := by
  simp only [add_update_appointment] at h
  split at h
  · exact absurd h (by simp)
  · split at h
    · simp only [Option.some.injEq] at h
      subst h
      exact ⟨rfl, rfl, rfl, rfl, rfl⟩
    · simp only [Option.some.injEq] at h
      subst h
      exact ⟨rfl, rfl, rfl, rfl, rfl⟩

theorem delApp_frame (gk : Gatekeeper) (apps : List (UUID × UserId)) :
    (delete_appointments gk apps).height = gk.height ∧
    (delete_appointments gk apps).subscription_slots = gk.subscription_slots ∧
    (delete_appointments gk apps).subscription_duration = gk.subscription_duration ∧
    (delete_appointments gk apps).expiry_delta = gk.expiry_delta ∧
    (delete_appointments gk apps).outdated_users_cache = gk.outdated_users_cache := by
  exact ⟨rfl, rfl, rfl, rfl, rfl⟩

theorem uouc_frame (gk : Gatekeeper) (h cs : Nat) :
    ((update_outdated_users_cache gk h cs).2).height = gk.height ∧
    ((update_outdated_users_cache gk h cs).2).subscription_slots = gk.subscription_slots ∧
    ((update_outdated_users_cache gk h cs).2).subscription_duration =
      gk.subscription_duration ∧
    ((update_outdated_users_cache gk h cs).2).expiry_delta = gk.expiry_delta ∧
    ((update_outdated_users_cache gk h cs).2).registered_users = gk.registered_users := by
  simp only [update_outdated_users_cache]
  split
  · exact ⟨rfl, rfl, rfl, rfl, rfl⟩
  · split
    · split
      · exact ⟨rfl, rfl, rfl, rfl, rfl⟩
      · exact ⟨rfl, rfl, rfl, rfl, rfl⟩
    · exact ⟨rfl, rfl, rfl, rfl, rfl⟩

theorem bc_frame (gk : Gatekeeper) (h cs : Nat) :
    (block_connected gk h cs).height = gk.height ∧
    (block_connected gk h cs).subscription_slots = gk.subscription_slots ∧
    (block_connected gk h cs).subscription_duration = gk.subscription_duration ∧
    (block_connected gk h cs).expiry_delta = gk.expiry_delta ∧
    (block_connected gk h cs).outdated_users_cache =
      ((update_outdated_users_cache gk h cs).2).outdated_users_cache := by
  exact ⟨(uouc_frame gk h cs).1, (uouc_frame gk h cs).2.1, (uouc_frame gk h cs).2.2.1,
    (uouc_frame gk h cs).2.2.2.1, rfl⟩

end FrameLemmas

section ConservationLemmas

theorem mod_add_eq_of_mod_eq {n a b : Nat} (c : Nat) (h : a % n = b % n) :
    (a + c) % n = (b + c) % n :=
  Nat.ModEq.add_right c h

theorem regsInv_mset (regs : AMap UserId UserInfo) (g : UserId → Nat) (uid : UserId)
    (info info2 : UserInfo) (hinv : RegsInv regs g) (hu : mget regs uid = some info)
    (hnd2 : NodupKeys info2.appointments)
    (hsum : (info2.available_slots + apptSum info2.appointments) % u32size =
            (info.available_slots + apptSum info.appointments) % u32size) :
    RegsInv (mset regs uid info2) g := by
  obtain ⟨hnd, hsome, hnone⟩ := hinv
  refine ⟨nodup_mset uid info2 hnd, ?_, ?_⟩
  · intro uid2 info3 h3
    by_cases he : uid2 = uid
    · subst he
      rw [mget_mset_self] at h3
      cases h3
      exact ⟨hnd2, hsum.trans (hsome uid2 info hu).2⟩
    · rw [mget_mset_ne regs uid uid2 info2 (fun hh => he hh.symm)] at h3
      exact hsome uid2 info3 h3
  · intro uid2 h3
    by_cases he : uid2 = uid
    · subst he
      rw [mget_mset_self] at h3
      cases h3
    · rw [mget_mset_ne regs uid uid2 info2 (fun hh => he hh.symm)] at h3
      exact hnone uid2 h3

theorem regsInv_mset_bump (regs : AMap UserId UserInfo) (g : UserId → Nat) (uid : UserId)
    (info info2 : UserInfo) (ss : Nat) (hinv : RegsInv regs g)
    (hu : mget regs uid = some info)
    (hnd2 : NodupKeys info2.appointments)
    (hsum : (info2.available_slots + apptSum info2.appointments) % u32size =
            (info.available_slots + apptSum info.appointments + ss) % u32size) :
    RegsInv (mset regs uid info2) (fun u => if u = uid then g u + ss else g u) := by
  obtain ⟨hnd, hsome, hnone⟩ := hinv
  refine ⟨nodup_mset uid info2 hnd, ?_, ?_⟩
  · intro uid2 info3 h3
    by_cases he : uid2 = uid
    · subst he
      rw [mget_mset_self] at h3
      cases h3
      refine ⟨hnd2, ?_⟩
      simp only [if_pos rfl]
      exact hsum.trans (mod_add_eq_of_mod_eq ss (hsome uid2 info hu).2)
    · rw [mget_mset_ne regs uid uid2 info2 (fun hh => he hh.symm)] at h3
      simpa only [if_neg he] using hsome uid2 info3 h3
  · intro uid2 h3
    by_cases he : uid2 = uid
    · subst he
      rw [mget_mset_self] at h3
      cases h3
    · rw [mget_mset_ne regs uid uid2 info2 (fun hh => he hh.symm)] at h3
      simpa only [if_neg he] using hnone uid2 h3

theorem regsInv_mset_new (regs : AMap UserId UserInfo) (g : UserId → Nat) (uid : UserId)
    (info2 : UserInfo) (ss : Nat) (hinv : RegsInv regs g)
    (hu : mget regs uid = none)
    (hnd2 : NodupKeys info2.appointments)
    (hsum : (info2.available_slots + apptSum info2.appointments) % u32size = ss % u32size) :
    RegsInv (mset regs uid info2) (fun u => if u = uid then g u + ss else g u) := by
  obtain ⟨hnd, hsome, hnone⟩ := hinv
  refine ⟨nodup_mset uid info2 hnd, ?_, ?_⟩
  · intro uid2 info3 h3
    by_cases he : uid2 = uid
    · subst he
      rw [mget_mset_self] at h3
      cases h3
      refine ⟨hnd2, ?_⟩
      simp only [if_pos rfl, hnone uid2 hu, Nat.zero_add]
      exact hsum
    · rw [mget_mset_ne regs uid uid2 info2 (fun hh => he hh.symm)] at h3
      simpa only [if_neg he] using hsome uid2 info3 h3
  · intro uid2 h3
    by_cases he : uid2 = uid
    · subst he
      rw [mget_mset_self] at h3
      cases h3
    · rw [mget_mset_ne regs uid uid2 info2 (fun hh => he hh.symm)] at h3
      simpa only [if_neg he] using hnone uid2 h3

theorem regsInv_delApptStep (g : UserId → Nat)
    (acc : AMap UserId UserInfo × List UserId) (p : UUID × UserId)
    (hinv : RegsInv acc.1 g) : RegsInv (delApptStep acc p).1 g := by
  rcases hu : mget acc.1 p.2 with _ | info
  · simp only [delApptStep, hu]
    exact hinv
  · rcases ha : mget info.appointments p.1 with _ | x
    · simp only [delApptStep, hu, ha]
      rw [mset_mget_self hu]
      exact hinv
    · simp only [delApptStep, hu, ha]
      refine regsInv_mset acc.1 g p.2 info
        ⟨(info.available_slots + x) % u32size, info.subscription_expiry,
         mdel info.appointments p.1⟩ hinv hu
        (nodup_mdel p.1 (hinv.2.1 p.2 info hu).1) ?_
      have hs : apptSum (mdel info.appointments p.1) + x = apptSum info.appointments :=
        apptSum_mdel_some (hinv.2.1 p.2 info hu).1 ha
      show ((info.available_slots + x) % u32size + apptSum (mdel info.appointments p.1))
            % u32size = (info.available_slots + apptSum info.appointments) % u32size
      calc ((info.available_slots + x) % u32size + apptSum (mdel info.appointments p.1))
            % u32size
          = (info.available_slots + x + apptSum (mdel info.appointments p.1)) % u32size := by
            rw [Nat.mod_add_mod]
        _ = (info.available_slots + apptSum info.appointments) % u32size := by
            rw [← hs]
            ring_nf

theorem regsInv_foldl_delApptStep (g : UserId → Nat) (apps : List (UUID × UserId))
    (acc : AMap UserId UserInfo × List UserId) (hinv : RegsInv acc.1 g) :
    RegsInv (apps.foldl delApptStep acc).1 g := by
  induction apps generalizing acc with
  | nil => exact hinv
  | cons p rest ih =>
    exact ih (delApptStep acc p) (regsInv_delApptStep g acc p hinv)

end ConservationLemmas

theorem appt_update_sum (info : UserInfo) (uuid : UUID) (required : Nat)
    (hcond : (required : Int) - ((mget info.appointments uuid).getD 0 : Int)
        ≤ (info.available_slots : Int)) :
    ((((info.available_slots : Int) -
        ((required : Int) - ((mget info.appointments uuid).getD 0 : Int))).toNat % u32size)
      + apptSum (mset info.appointments uuid required)) % u32size
    = (info.available_slots + apptSum info.appointments) % u32size := by
  rcases ha : mget info.appointments uuid with _ | x
  · simp only [ha, Option.getD_none, Nat.cast_zero, sub_zero] at hcond ⊢
    have hreq : required ≤ info.available_slots := by exact_mod_cast hcond
    have ht : ((info.available_slots : Int) - (required : Int)).toNat =
        info.available_slots - required := by omega
    rw [ht, apptSum_mset_none required ha, Nat.mod_add_mod]
    congr 1
    omega
  · simp only [ha, Option.getD_some] at hcond ⊢
    have hreq : required ≤ info.available_slots + x := by omega
    have ht : ((info.available_slots : Int) - ((required : Int) - (x : Int))).toNat =
        info.available_slots + x - required := by omega
    have hs := apptSum_mset_some (m := info.appointments) (k := uuid) (x := x) required ha
    rw [ht, Nat.mod_add_mod]
    congr 1
    omega

theorem regsInv_stepG (bm cs : Nat) (s : Gatekeeper × (UserId → Nat)) (op : Op)
    (hb : op.isBasic) (hinv : RegsInv s.1.registered_users s.2) :
    RegsInv (stepG bm cs s op).1.registered_users (stepG bm cs s op).2 := by
  cases op with
  | regUser uid =>
    rcases hu : mget s.1.registered_users uid with _ | info
    · rcases hd : mget s.1.dbm uid with _ | dinfo
      · simp only [stepG, add_update_user, hu, hd]
        refine regsInv_mset_new s.1.registered_users s.2 uid _ _ hinv hu ?_ ?_
        · simp [UserInfo.new, NodupKeys]
        · simp [UserInfo.new, apptSum]
      · simp only [stepG, add_update_user, hu, hd]
        exact hinv
    · by_cases hle : info.available_slots + s.1.subscription_slots ≤ u32MAX
      · simp only [stepG, add_update_user, hu, if_pos hle]
        refine regsInv_mset_bump s.1.registered_users s.2 uid info _
          s.1.subscription_slots hinv hu (hinv.2.1 uid info hu).1 ?_
        show (info.available_slots + s.1.subscription_slots + apptSum info.appointments)
            % u32size =
          (info.available_slots + apptSum info.appointments + s.1.subscription_slots)
            % u32size
        ring_nf
      · simp only [stepG, add_update_user, hu, if_neg hle]
        exact hinv
  | addAppt uid uuid len =>
    rcases hu : mget s.1.registered_users uid with _ | info
    · simp only [stepG, step, add_update_appointment, hu]
      exact hinv
    · by_cases hcond : ((compute_appointment_slots len bm : Int) -
          ((mget info.appointments uuid).getD 0 : Int) ≤ (info.available_slots : Int))
      · simp only [stepG, step, add_update_appointment, hu, if_pos hcond]
        refine regsInv_mset s.1.registered_users s.2 uid info _ hinv hu
          (nodup_mset uuid (compute_appointment_slots len bm)
            (hinv.2.1 uid info hu).1) ?_
        exact appt_update_sum info uuid (compute_appointment_slots len bm) hcond
      · simp only [stepG, step, add_update_appointment, hu, if_neg hcond]
        exact hinv
  | delAppts apps =>
    simp only [stepG, step, delete_appointments]
    exact regsInv_foldl_delApptStep s.2 apps (s.1.registered_users, []) hinv
  | cacheUpd h => exact absurd hb (by simp [Op.isBasic])
  | blockConn h => exact absurd hb (by simp [Op.isBasic])

theorem regsInv_runTraceG (bm cs : Nat) (ops : List Op) (s : Gatekeeper × (UserId → Nat))
    (hb : ∀ op ∈ ops, op.isBasic) (hinv : RegsInv s.1.registered_users s.2) :
    RegsInv (runTraceG bm cs s ops).1.registered_users (runTraceG bm cs s ops).2 := by
  induction ops generalizing s with
  | nil => exact hinv
  | cons op rest ih =>
    have h1 : RegsInv (stepG bm cs s op).1.registered_users (stepG bm cs s op).2 :=
      regsInv_stepG bm cs s op (hb op (by simp)) hinv
    exact ih (stepG bm cs s op) (fun o ho => hb o (by simp [ho])) h1

/-- C1 (amended): slot conservation holds modulo 2^32. Starting from a fresh
Gatekeeper and running any sequence of add_update_user,
add_update_appointment and delete_appointments operations, every registered
user satisfies: available_slots plus the sum of the values of the user
appointments map is congruent modulo 2^32 to the total slots ever granted
(subscription_slots per successful registration or renewal; delete releases
nothing permanently, it refunds into available_slots). Exact equality fails
because the slot updates wrap, see the counterexample. -/
theorem slot_conservation_mod (blobMax cacheSize h0 ss sd ed : Nat) (ops : List Op)
    (hb : ∀ op ∈ ops, op.isBasic) (uid : UserId) (info : UserInfo)
    (hreg : mget (runTraceG blobMax cacheSize (Gatekeeper.init h0 ss sd ed, fun _ => 0)
        ops).1.registered_users uid = some info) :
    (info.available_slots + apptSum info.appointments) % u32size =
      (runTraceG blobMax cacheSize (Gatekeeper.init h0 ss sd ed, fun _ => 0) ops).2 uid
        % u32size := by
  have hinit : RegsInv (Gatekeeper.init h0 ss sd ed, fun _ : UserId => 0).1.registered_users
      (Gatekeeper.init h0 ss sd ed, fun _ : UserId => 0).2 := by
    refine ⟨by simp [Gatekeeper.init, NodupKeys], ?_, ?_⟩
    · intro uid2 info2 h2
      simp [Gatekeeper.init, mget] at h2
    · intro uid2 h2
      rfl
  have hinv := regsInv_runTraceG blobMax cacheSize ops
    (Gatekeeper.init h0 ss sd ed, fun _ => 0) hb hinit
  exact (hinv.2.1 uid info hreg).2

/-- Witness for the amended C1 theorem on a concrete three-operation trace:
register user 3, add a 3-slot appointment, then delete it again; the user
ends with 21 available slots against 21 granted. -/
theorem slot_conservation_mod_applied :
    (∀ op ∈ [Op.regUser 3, Op.addAppt 3 0 5, Op.delAppts [(0, 3)]], op.isBasic) ∧
    mget (runTraceG 2 10 (Gatekeeper.init 100 21 500 42, fun _ => 0)
        [Op.regUser 3, Op.addAppt 3 0 5, Op.delAppts [(0, 3)]]).1.registered_users 3 =
      some ⟨21, 600, []⟩ ∧
    ((21 : Nat) + apptSum []) % u32size =
      (runTraceG 2 10 (Gatekeeper.init 100 21 500 42, fun _ => 0)
        [Op.regUser 3, Op.addAppt 3 0 5, Op.delAppts [(0, 3)]]).2 3 % u32size :=
  ⟨by decide, rfl,
    slot_conservation_mod 2 10 100 21 500 42
      [Op.regUser 3, Op.addAppt 3 0 5, Op.delAppts [(0, 3)]] (by decide) 3
      ⟨21, 600, []⟩ rfl⟩

/-- C1 counterexample: with subscription_slots at u32::MAX (a legal u32
configuration) the exact conservation identity fails on a reachable
four-operation trace (register, fill the subscription with one appointment,
renew, shrink the appointment): the cast in add_update_appointment wraps and
the user ends with available_slots + sum = 2^32 - 2 although 2*(2^32 - 1)
slots were granted and delete_appointments never ran. -/
theorem slot_conservation_exact_fails :
    mget ((runTraceG 1 10 (Gatekeeper.init 0 4294967295 0 0, fun _ => 0)
        [Op.regUser 0, Op.addAppt 0 0 4294967295, Op.regUser 0,
         Op.addAppt 0 0 1]).1.registered_users) 0 =
      some ⟨4294967293, 0, [(0, 1)]⟩ ∧
    (runTraceG 1 10 (Gatekeeper.init 0 4294967295 0 0, fun _ => 0)
        [Op.regUser 0, Op.addAppt 0 0 4294967295, Op.regUser 0, Op.addAppt 0 0 1]).2 0 =
      8589934590 ∧
    4294967293 + apptSum [(0, 1)] ≠ 8589934590 :=
  ⟨rfl, rfl, by decide⟩

section RangeLemmas

theorem mod_le_u32MAX (a : Nat) : a % u32size ≤ u32MAX := by
  have h := Nat.mod_lt a (show 0 < u32size by decide)
  simp only [u32size, u32MAX] at h ⊢
  omega

theorem slotsLe_mset (regs : AMap UserId UserInfo) (uid : UserId) (info2 : UserInfo)
    (hinv : SlotsLe regs) (h2 : info2.available_slots ≤ u32MAX) :
    SlotsLe (mset regs uid info2) := by
  intro uid2 info3 h3
  by_cases he : uid2 = uid
  · subst he
    rw [mget_mset_self] at h3
    cases h3
    exact h2
  · rw [mget_mset_ne regs uid uid2 info2 (fun hh => he hh.symm)] at h3
    exact hinv uid2 info3 h3

theorem slotsLe_delApptStep (acc : AMap UserId UserInfo × List UserId) (p : UUID × UserId)
    (hinv : SlotsLe acc.1) : SlotsLe (delApptStep acc p).1 := by
  rcases hu : mget acc.1 p.2 with _ | info
  · simp only [delApptStep, hu]
    exact hinv
  · rcases ha : mget info.appointments p.1 with _ | x
    · simp only [delApptStep, hu, ha]
      rw [mset_mget_self hu]
      exact hinv
    · simp only [delApptStep, hu, ha]
      exact slotsLe_mset acc.1 p.2 _ hinv (mod_le_u32MAX _)

theorem slotsLe_foldl_delApptStep (apps : List (UUID × UserId))
    (acc : AMap UserId UserInfo × List UserId) (hinv : SlotsLe acc.1) :
    SlotsLe (apps.foldl delApptStep acc).1 := by
  induction apps generalizing acc with
  | nil => exact hinv
  | cons p rest ih =>
    exact ih (delApptStep acc p) (slotsLe_delApptStep acc p hinv)

theorem slotsLe_step (bm cs : Nat) (gk : Gatekeeper) (op : Op)
    (hss : gk.subscription_slots ≤ u32MAX) (hinv : SlotsLe gk.registered_users) :
    SlotsLe (step bm cs gk op).registered_users := by
  cases op with
  | regUser uid =>
    rcases hu : mget gk.registered_users uid with _ | info
    · rcases hd : mget gk.dbm uid with _ | dinfo
      · simp only [step, add_update_user, hu, hd]
        exact slotsLe_mset gk.registered_users uid _ hinv hss
      · simp only [step, add_update_user, hu, hd]
        exact hinv
    · by_cases hle : info.available_slots + gk.subscription_slots ≤ u32MAX
      · simp only [step, add_update_user, hu, if_pos hle]
        exact slotsLe_mset gk.registered_users uid _ hinv hle
      · simp only [step, add_update_user, hu, if_neg hle]
        exact hinv
  | addAppt uid uuid len =>
    rcases hu : mget gk.registered_users uid with _ | info
    · simp only [step, add_update_appointment, hu]
      exact hinv
    · by_cases hcond : ((compute_appointment_slots len bm : Int) -
          ((mget info.appointments uuid).getD 0 : Int) ≤ (info.available_slots : Int))
      · simp only [step, add_update_appointment, hu, if_pos hcond]
        exact slotsLe_mset gk.registered_users uid _ hinv (mod_le_u32MAX _)
      · simp only [step, add_update_appointment, hu, if_neg hcond]
        exact hinv
  | delAppts apps =>
    simp only [step, delete_appointments]
    exact slotsLe_foldl_delApptStep apps (gk.registered_users, []) hinv
  | cacheUpd h =>
    simp only [step]
    rw [(uouc_frame gk h cs).2.2.2.2]
    exact hinv
  | blockConn h =>
    intro uid2 info2 h2
    simp only [step, block_connected] at h2
    rw [(uouc_frame gk h cs).2.2.2.2] at h2
    exact hinv uid2 info2 (mget_some_of_mdelAll h2).1

theorem step_subscription_slots (bm cs : Nat) (gk : Gatekeeper) (op : Op) :
    (step bm cs gk op).subscription_slots = gk.subscription_slots := by
  cases op with
  | regUser uid =>
    rcases hr : add_update_user gk uid with _ | ⟨res, gk2⟩
    · simp only [step, hr]
    · simp only [step, hr]
      exact (auu_frame gk uid (res, gk2) hr).2.1
  | addAppt uid uuid len =>
    rcases hr : add_update_appointment gk uid uuid len bm with _ | ⟨res, gk2⟩
    · simp only [step, hr]
    · simp only [step, hr]
      exact (aua_frame gk uid uuid len bm (res, gk2) hr).2.1
  | delAppts apps => exact (delApp_frame gk apps).2.1
  | cacheUpd h => exact (uouc_frame gk h cs).2.1
  | blockConn h => exact (bc_frame gk h cs).2.1

theorem slotsLe_runTrace (bm cs : Nat) (ops : List Op) (gk : Gatekeeper)
    (hss : gk.subscription_slots ≤ u32MAX) (hinv : SlotsLe gk.registered_users) :
    SlotsLe (runTrace bm cs gk ops).registered_users := by
  induction ops generalizing gk with
  | nil => exact hinv
  | cons op rest ih =>
    refine ih (step bm cs gk op) ?_ (slotsLe_step bm cs gk op hss hinv)
    rw [step_subscription_slots]
    exact hss

end RangeLemmas

/-- C2 (amended): in every state reachable from a fresh Gatekeeper (with a
u32 configuration) through add_update_user, add_update_appointment and
delete_appointments, every registered user's stored available_slots is at
most u32::MAX. add_update_user enforces this with checked_add and rejects
with MaxSlotsReached; the refunds in add_update_appointment (shrinking
update) and delete_appointments keep the stored value in range only by
wrapping modulo 2^32 - they are not rejected and do not leave state
unchanged, see the counterexample. -/
theorem available_slots_le_max (blobMax cacheSize h0 ss sd ed : Nat) (ops : List Op)
    (hss : ss ≤ u32MAX) (_hb : ∀ op ∈ ops, op.isBasic) (uid : UserId) (info : UserInfo)
    (hreg : mget (runTrace blobMax cacheSize (Gatekeeper.init h0 ss sd ed)
        ops).registered_users uid = some info) :
    info.available_slots ≤ u32MAX := by
  have hinv : SlotsLe (Gatekeeper.init h0 ss sd ed).registered_users := by
    intro uid2 info2 h2
    simp [Gatekeeper.init, mget] at h2
  exact slotsLe_runTrace blobMax cacheSize ops (Gatekeeper.init h0 ss sd ed) hss hinv
    uid info hreg

/-- Witness for the amended C2 theorem: a two-operation trace with the spec
scenario configuration ends with user 3 holding 20 slots, within u32::MAX. -/
theorem available_slots_le_max_applied :
    (21 : Nat) ≤ u32MAX ∧
    (∀ op ∈ [Op.regUser 3, Op.addAppt 3 0 1], op.isBasic) ∧
    mget (runTrace 2 10 (Gatekeeper.init 100 21 500 42)
        [Op.regUser 3, Op.addAppt 3 0 1]).registered_users 3 = some ⟨20, 600, [(0, 1)]⟩ ∧
    (20 : Nat) ≤ u32MAX :=
  ⟨by decide, by decide, rfl,
    available_slots_le_max 2 10 100 21 500 42 [Op.regUser 3, Op.addAppt 3 0 1]
      (by decide) (by decide) 3 ⟨20, 600, [(0, 1)]⟩ rfl⟩

/-- C2 counterexample: a reachable state (subscription_slots = u32::MAX,
register, add a full-size appointment, renew) in which the exact result of
the delete_appointments refund, 2*(2^32 - 1), exceeds u32::MAX; the call is
not rejected: it changes the state and stores the wrapped value 2^32 - 2. -/
theorem delete_refund_wraps :
    mget ((runTrace 1 10 (Gatekeeper.init 0 4294967295 0 0)
        [Op.regUser 0, Op.addAppt 0 0 4294967295,
         Op.regUser 0]).registered_users) 0 =
      some ⟨4294967295, 0, [(0, 4294967295)]⟩ ∧
    u32MAX < 4294967295 + 4294967295 ∧
    delete_appointments (runTrace 1 10 (Gatekeeper.init 0 4294967295 0 0)
        [Op.regUser 0, Op.addAppt 0 0 4294967295, Op.regUser 0]) [(0, 0)] ≠
      runTrace 1 10 (Gatekeeper.init 0 4294967295 0 0)
        [Op.regUser 0, Op.addAppt 0 0 4294967295, Op.regUser 0] ∧
    mget ((delete_appointments (runTrace 1 10 (Gatekeeper.init 0 4294967295 0 0)
        [Op.regUser 0, Op.addAppt 0 0 4294967295, Op.regUser 0])
        [(0, 0)]).registered_users) 0 = some ⟨4294967294, 0, []⟩ :=
  ⟨rfl, by decide, by decide, rfl⟩

section CacheLemmas

theorem uouc_cache_len (gk : Gatekeeper) (h cs : Nat)
    (hlen : gk.outdated_users_cache.length ≤ cs) :
    ((update_outdated_users_cache gk h cs).2).outdated_users_cache.length ≤ cs := by
  rcases hc : mget gk.outdated_users_cache h with _ | entry
  · simp only [update_outdated_users_cache, hc, Option.isSome_none, Bool.false_eq_true,
      if_false]
    have hlen1 : (mset gk.outdated_users_cache h (get_outdated_users gk h)).length =
        gk.outdated_users_cache.length + 1 := length_mset_none _ hc
    by_cases hgt : cs < (mset gk.outdated_users_cache h (get_outdated_users gk h)).length
    · simp only [if_pos hgt]
      rcases hmin : listMin ((mset gk.outdated_users_cache h
          (get_outdated_users gk h)).map Prod.fst) with _ | first
      · exfalso
        rw [listMin_eq_none_iff] at hmin
        have hz := congrArg List.length hmin
        rw [List.length_map] at hz
        simp only [List.length_nil] at hz
        omega
      · simp only [hmin]
        have hmem := listMin_mem hmin
        have hlt := length_mdel_lt hmem
        omega
    · simp only [if_neg hgt]
      omega
  · simp only [update_outdated_users_cache, hc, Option.isSome_some, if_true]
    exact hlen

theorem cache_len_step (bm cs : Nat) (gk : Gatekeeper) (op : Op)
    (hlen : gk.outdated_users_cache.length ≤ cs) :
    (step bm cs gk op).outdated_users_cache.length ≤ cs := by
  cases op with
  | regUser uid =>
    rcases hr : add_update_user gk uid with _ | ⟨res, gk2⟩
    · simpa only [step, hr] using hlen
    · simp only [step, hr]
      rw [(auu_frame gk uid (res, gk2) hr).2.2.2.2]
      exact hlen
  | addAppt uid uuid len =>
    rcases hr : add_update_appointment gk uid uuid len bm with _ | ⟨res, gk2⟩
    · simpa only [step, hr] using hlen
    · simp only [step, hr]
      rw [(aua_frame gk uid uuid len bm (res, gk2) hr).2.2.2.2]
      exact hlen
  | delAppts apps =>
    simp only [step]
    rw [(delApp_frame gk apps).2.2.2.2]
    exact hlen
  | cacheUpd h =>
    simp only [step]
    exact uouc_cache_len gk h cs hlen
  | blockConn h =>
    simp only [step]
    rw [(bc_frame gk h cs).2.2.2.2]
    exact uouc_cache_len gk h cs hlen

end CacheLemmas

/-- C6 (confirmed): the outdated-users cache never holds more than the cache
capacity (`OUTDATED_USERS_CACHE_SIZE_BLOCKS`, threaded as `cacheSize`): in
every state reachable from a fresh Gatekeeper by any sequence of Gatekeeper
operations, the number of cache entries is at most `cacheSize`. -/
theorem outdated_cache_bounded (blobMax cacheSize h0 ss sd ed : Nat) (ops : List Op) :
    (runTrace blobMax cacheSize (Gatekeeper.init h0 ss sd ed)
      ops).outdated_users_cache.length ≤ cacheSize := by
  suffices hgen : ∀ gk : Gatekeeper, gk.outdated_users_cache.length ≤ cacheSize →
      (runTrace blobMax cacheSize gk ops).outdated_users_cache.length ≤ cacheSize by
    exact hgen (Gatekeeper.init h0 ss sd ed) (by simp [Gatekeeper.init])
  induction ops with
  | nil => exact fun gk hlen => hlen
  | cons op rest ih =>
    intro gk hlen
    exact ih (step blobMax cacheSize gk op) (cache_len_step blobMax cacheSize gk op hlen)

/-- C3 (confirmed): functional contract of add_update_appointment for a
registered user. With required = ceil(len / ENCRYPTED_BLOB_MAX_SIZE) and
used = the slots currently recorded for the uuid (0 if absent): if
required - used fits in available_slots, the appointment is set to required
slots, available_slots becomes available_slots - (required - used) computed
in signed space and cast to u32 (mod 2^32), the new count is returned, and
the in-memory and durable records are updated; otherwise NotEnoughSlots is
returned and the state is unchanged. -/
theorem add_update_appointment_spec (gk : Gatekeeper) (uid : UserId) (uuid : UUID)
    (len blobMax : Nat) (info : UserInfo)
    (hreg : mget gk.registered_users uid = some info) :
    (compute_appointment_slots len blobMax ≤
        info.available_slots + (mget info.appointments uuid).getD 0 →
      add_update_appointment gk uid uuid len blobMax =
        some (Except.ok ((info.available_slots + (mget info.appointments uuid).getD 0 -
            compute_appointment_slots len blobMax) % u32size),
          { gk with
            registered_users := mset gk.registered_users uid
              ⟨(info.available_slots + (mget info.appointments uuid).getD 0 -
                  compute_appointment_slots len blobMax) % u32size,
               info.subscription_expiry,
               mset info.appointments uuid (compute_appointment_slots len blobMax)⟩,
            dbm := mset gk.dbm uid
              ⟨(info.available_slots + (mget info.appointments uuid).getD 0 -
                  compute_appointment_slots len blobMax) % u32size,
               info.subscription_expiry,
               mset info.appointments uuid (compute_appointment_slots len blobMax)⟩ })) ∧
    (info.available_slots + (mget info.appointments uuid).getD 0 <
        compute_appointment_slots len blobMax →
      add_update_appointment gk uid uuid len blobMax =
        some (Except.error NotEnoughSlots.mk, gk)) := by
  constructor
  · intro hle
    have hcond : (compute_appointment_slots len blobMax : Int) -
        ((mget info.appointments uuid).getD 0 : Int) ≤ (info.available_slots : Int) := by
      omega
    have ht : ((info.available_slots : Int) -
        ((compute_appointment_slots len blobMax : Int) -
         ((mget info.appointments uuid).getD 0 : Int))).toNat =
        info.available_slots + (mget info.appointments uuid).getD 0 -
          compute_appointment_slots len blobMax := by
      omega
    simp only [add_update_appointment, hreg, if_pos hcond, ht]
  · intro hlt
    have hcond : ¬ ((compute_appointment_slots len blobMax : Int) -
        ((mget info.appointments uuid).getD 0 : Int) ≤ (info.available_slots : Int)) := by
      omega
    simp only [add_update_appointment, hreg, if_neg hcond]

/-- Witness for C3: a registered user with 21 slots adds a fresh 2-slot
appointment (len 3, unit size 2) and ends with 19 slots, in memory and in
the store. -/
theorem add_update_appointment_spec_applied :
    add_update_appointment
        (⟨100, 21, 500, 42, [(1, ⟨21, 600, []⟩)], [], [(1, ⟨21, 600, []⟩)]⟩ : Gatekeeper)
        1 5 3 2 =
      some (Except.ok 19,
        (⟨100, 21, 500, 42, [(1, ⟨19, 600, [(5, 2)]⟩)], [],
          [(1, ⟨19, 600, [(5, 2)]⟩)]⟩ : Gatekeeper)) := by
  have h := (add_update_appointment_spec
      (⟨100, 21, 500, 42, [(1, ⟨21, 600, []⟩)], [], [(1, ⟨21, 600, []⟩)]⟩ : Gatekeeper)
      1 5 3 2 ⟨21, 600, []⟩ rfl).1 (by decide)
  exact h.trans rfl

/-- C8 (confirmed): renewal for an already-registered user whose
available_slots + subscription_slots exceeds u32::MAX returns MaxSlotsReached
and leaves the whole state (memory and durable store) unchanged. -/
theorem add_update_user_max_slots (gk : Gatekeeper) (uid : UserId) (info : UserInfo)
    (hreg : mget gk.registered_users uid = some info)
    (hover : u32MAX < info.available_slots + gk.subscription_slots) :
    add_update_user gk uid = some (Except.error MaxSlotsReached.mk, gk) := by
  have hcond : ¬ (info.available_slots + gk.subscription_slots ≤ u32MAX) := by omega
  simp only [add_update_user, hreg, if_neg hcond]

/-- Witness for C8: a user sitting at u32::MAX slots is rejected on renewal
with no state change. -/
theorem add_update_user_max_slots_applied :
    mget (Gatekeeper.registered_users (⟨100, 1, 500, 42, [(2, ⟨4294967295, 600, []⟩)], [],
        [(2, ⟨4294967295, 600, []⟩)]⟩ : Gatekeeper)) 2 = some ⟨4294967295, 600, []⟩ ∧
    u32MAX < 4294967295 + 1 ∧
    add_update_user (⟨100, 1, 500, 42, [(2, ⟨4294967295, 600, []⟩)], [],
        [(2, ⟨4294967295, 600, []⟩)]⟩ : Gatekeeper) 2 =
      some (Except.error MaxSlotsReached.mk,
        (⟨100, 1, 500, 42, [(2, ⟨4294967295, 600, []⟩)], [],
          [(2, ⟨4294967295, 600, []⟩)]⟩ : Gatekeeper)) :=
  ⟨rfl, by decide,
    add_update_user_max_slots
      (⟨100, 1, 500, 42, [(2, ⟨4294967295, 600, []⟩)], [],
        [(2, ⟨4294967295, 600, []⟩)]⟩ : Gatekeeper) 2 ⟨4294967295, 600, []⟩ rfl
      (by decide)⟩

/-- C9 (amended): for an already-registered user with a positive
subscription_slots configuration, a renewal that fits under u32::MAX
succeeds, adds exactly subscription_slots (hence strictly increases
available_slots), resets the expiry, and persists; a renewal that would
exceed u32::MAX fails with MaxSlotsReached. The strict increase fails for
the (legal) configuration subscription_slots = 0, see the counterexample. -/
theorem add_update_user_renewal (gk : Gatekeeper) (uid : UserId) (info : UserInfo)
    (hreg : mget gk.registered_users uid = some info)
    (hpos : 0 < gk.subscription_slots) :
    (info.available_slots + gk.subscription_slots ≤ u32MAX →
      add_update_user gk uid =
        some (Except.ok ⟨uid, info.available_slots + gk.subscription_slots,
            (gk.height + gk.subscription_duration) % u32size⟩,
          { gk with
            registered_users := mset gk.registered_users uid
              ⟨info.available_slots + gk.subscription_slots,
               (gk.height + gk.subscription_duration) % u32size, info.appointments⟩,
            dbm := mset gk.dbm uid
              ⟨info.available_slots + gk.subscription_slots,
               (gk.height + gk.subscription_duration) % u32size, info.appointments⟩ }) ∧
      info.available_slots < info.available_slots + gk.subscription_slots) ∧
    (u32MAX < info.available_slots + gk.subscription_slots →
      add_update_user gk uid = some (Except.error MaxSlotsReached.mk, gk)) := by
  constructor
  · intro hle
    constructor
    · simp only [add_update_user, hreg, if_pos hle]
    · omega
  · intro hover
    have hcond : ¬ (info.available_slots + gk.subscription_slots ≤ u32MAX) := by omega
    simp only [add_update_user, hreg, if_neg hcond]

/-- Witness for the amended C9 theorem: a user with 5 slots renews under a
21-slot configuration and ends with 26 slots, strictly more than 5. -/
theorem add_update_user_renewal_applied :
    add_update_user (⟨100, 21, 500, 42, [(1, ⟨5, 200, []⟩)], [],
        [(1, ⟨5, 200, []⟩)]⟩ : Gatekeeper) 1 =
      some (Except.ok ⟨1, 26, 600⟩,
        (⟨100, 21, 500, 42, [(1, ⟨26, 600, []⟩)], [],
          [(1, ⟨26, 600, []⟩)]⟩ : Gatekeeper)) ∧
    (5 : Nat) < 5 + 21 := by
  have h := (add_update_user_renewal
      (⟨100, 21, 500, 42, [(1, ⟨5, 200, []⟩)], [], [(1, ⟨5, 200, []⟩)]⟩ : Gatekeeper) 1
      ⟨5, 200, []⟩ rfl (by decide)).1 (by decide)
  exact ⟨h.1.trans rfl, h.2⟩

/-- C9 counterexample: with the legal configuration subscription_slots = 0,
a renewal succeeds (it never saturates) and available_slots stays at 5: the
call does not strictly increase the count, refuting the claim as stated. -/
theorem renewal_zero_slots_not_strict :
    add_update_user (⟨100, 0, 500, 42, [(1, ⟨5, 200, []⟩)], [],
        [(1, ⟨5, 200, []⟩)]⟩ : Gatekeeper) 1 =
      some (Except.ok ⟨1, 5, 600⟩,
        (⟨100, 0, 500, 42, [(1, ⟨5, 600, []⟩)], [],
          [(1, ⟨5, 600, []⟩)]⟩ : Gatekeeper)) ∧
    ¬ (5 : Nat) < 5 :=
  ⟨rfl, by decide⟩

/-- C10 (confirmed): calling add_update_appointment for a user id that is
not in registered_users panics (the source unwraps the lookup); the model
returns none, and the operation is meaningful only under the registration
precondition. -/
theorem add_update_appointment_unregistered (gk : Gatekeeper) (uid : UserId) (uuid : UUID)
    (len blobMax : Nat) (h : mget gk.registered_users uid = none) :
    add_update_appointment gk uid uuid len blobMax = none := by
  simp only [add_update_appointment, h]

/-- Witness for C10: on a fresh Gatekeeper every user is unregistered and
the call panics (models as none). -/
theorem add_update_appointment_unregistered_applied :
    mget (Gatekeeper.registered_users (Gatekeeper.init 100 21 500 42)) 7 = none ∧
    add_update_appointment (Gatekeeper.init 100 21 500 42) 7 0 5 2 = none :=
  ⟨rfl, add_update_appointment_unregistered (Gatekeeper.init 100 21 500 42) 7 0 5 2 rfl⟩

section UoucBranches

theorem uouc_hit (gk : Gatekeeper) (h cs : Nat) (m : AMap UserId (List UUID))
    (hm : mget gk.outdated_users_cache h = some m) :
    update_outdated_users_cache gk h cs = ([], gk) := by
  simp [update_outdated_users_cache, hm]

theorem uouc_miss_fst (gk : Gatekeeper) (h cs : Nat)
    (hmiss : mget gk.outdated_users_cache h = none) :
    (update_outdated_users_cache gk h cs).1 = get_outdated_users gk h := by
  simp only [update_outdated_users_cache, hmiss, Option.isSome_none, Bool.false_eq_true,
    if_false]
  by_cases hgt : cs < (mset gk.outdated_users_cache h (get_outdated_users gk h)).length
  · simp only [if_pos hgt]
    rcases hmin : listMin ((mset gk.outdated_users_cache h
        (get_outdated_users gk h)).map Prod.fst) with _ | first
    · simp only [hmin]
    · simp only [hmin]
  · simp only [if_neg hgt]

end UoucBranches

/-- C4 (confirmed): get_outdated_users returns a copy of the cached entry on
a cache hit; on a miss it returns exactly the registered users whose
subscription_expiry + expiry_delta equals the queried height (strict
equality; the u32 sum is assumed not to overflow), each mapped to its full
appointment-id list. The function only reads state in the source (shared
borrow, no cache write), so the fresh result is not cached by construction. -/
theorem get_outdated_users_spec (gk : Gatekeeper) (h : Nat)
    (hnd : NodupKeys gk.registered_users)
    (hnof : ∀ uid info, mget gk.registered_users uid = some info →
      info.subscription_expiry + gk.expiry_delta ≤ u32MAX) :
    (∀ m, mget gk.outdated_users_cache h = some m → get_outdated_users gk h = m) ∧
    (mget gk.outdated_users_cache h = none →
      ∀ uid, mget (get_outdated_users gk h) uid =
        (match mget gk.registered_users uid with
         | some info =>
             if info.subscription_expiry + gk.expiry_delta = h then
               some (info.appointments.map Prod.fst)
             else none
         | none => none)) := by
  constructor
  · intro m hm
    simp [get_outdated_users, hm]
  · intro hmiss uid
    simp only [get_outdated_users, hmiss]
    rcases hu : mget gk.registered_users uid with _ | info
    · simp only [hu]
      exact mget_filterMap_of_none
        (fun info2 : UserInfo => h = (info2.subscription_expiry + gk.expiry_delta) % u32size)
        (fun info2 : UserInfo => info2.appointments.map Prod.fst) hu
    · simp only [hu]
      have hl := mget_filterMap_of_some
        (fun info2 : UserInfo => h = (info2.subscription_expiry + gk.expiry_delta) % u32size)
        (fun info2 : UserInfo => info2.appointments.map Prod.fst) hnd hu
      refine hl.trans ?_
      have hm : (info.subscription_expiry + gk.expiry_delta) % u32size =
          info.subscription_expiry + gk.expiry_delta := by
        have := hnof uid info hu
        apply Nat.mod_eq_of_lt
        simp only [u32MAX, u32size] at this ⊢
        omega
      simp only [hm]
      by_cases hh : info.subscription_expiry + gk.expiry_delta = h
      · rw [if_pos hh.symm, if_pos hh]
      · rw [if_neg (fun hc => hh hc.symm), if_neg hh]

/-- Witness for C4: on a cache miss at height 142 a user with expiry 100 and
delta 42 is reported outdated with its appointment list. -/
theorem get_outdated_users_spec_applied :
    mget (Gatekeeper.outdated_users_cache
      (⟨142, 21, 500, 42, [(3, ⟨20, 100, [(9, 1)]⟩)], [], []⟩ : Gatekeeper)) 142 = none ∧
    mget (get_outdated_users
      (⟨142, 21, 500, 42, [(3, ⟨20, 100, [(9, 1)]⟩)], [], []⟩ : Gatekeeper) 142) 3 =
      some [9] := by
  have hnof : ∀ uid info,
      mget (Gatekeeper.registered_users
        (⟨142, 21, 500, 42, [(3, ⟨20, 100, [(9, 1)]⟩)], [], []⟩ : Gatekeeper)) uid =
          some info →
      info.subscription_expiry +
        (⟨142, 21, 500, 42, [(3, ⟨20, 100, [(9, 1)]⟩)], [], []⟩ :
          Gatekeeper).expiry_delta ≤ u32MAX := by
    intro uid info hu
    by_cases he : (3 : Nat) = uid
    · simp [mget, he] at hu
      rw [← hu]
      decide
    · simp [mget, he] at hu
  have h := ((get_outdated_users_spec
      (⟨142, 21, 500, 42, [(3, ⟨20, 100, [(9, 1)]⟩)], [], []⟩ : Gatekeeper) 142
      (by decide) hnof).2 rfl) 3
  exact ⟨rfl, h.trans rfl⟩

/-- C5 (confirmed): at an already-cached height update_outdated_users_cache
changes no state and returns the empty map; at a new height it returns the
outdated users of that height and caches them under the height, and when
the cache then exceeds the capacity it deletes exactly the entry with the
numerically lowest height and calls remove_user on the durable store for
every user of that entry; registered_users is never touched. -/
theorem update_outdated_users_cache_spec (gk : Gatekeeper) (h cs : Nat) :
    ((mget gk.outdated_users_cache h).isSome →
      update_outdated_users_cache gk h cs = ([], gk)) ∧
    (mget gk.outdated_users_cache h = none →
      (update_outdated_users_cache gk h cs).1 = get_outdated_users gk h ∧
      ((mset gk.outdated_users_cache h (get_outdated_users gk h)).length ≤ cs →
        (update_outdated_users_cache gk h cs).2 =
          { gk with
            outdated_users_cache := mset gk.outdated_users_cache h
              (get_outdated_users gk h) }) ∧
      (cs < (mset gk.outdated_users_cache h (get_outdated_users gk h)).length →
        ∃ first,
          first ∈ (mset gk.outdated_users_cache h
            (get_outdated_users gk h)).map Prod.fst ∧
          (∀ k ∈ (mset gk.outdated_users_cache h
              (get_outdated_users gk h)).map Prod.fst, first ≤ k) ∧
          (update_outdated_users_cache gk h cs).2.outdated_users_cache =
            mdel (mset gk.outdated_users_cache h (get_outdated_users gk h)) first ∧
          (update_outdated_users_cache gk h cs).2.registered_users =
            gk.registered_users ∧
          (∀ uid : UserId,
            mget ((update_outdated_users_cache gk h cs).2.dbm) uid =
              if uid ∈ ((mget (mset gk.outdated_users_cache h
                  (get_outdated_users gk h)) first).getD []).map Prod.fst then none
              else mget gk.dbm uid))) := by
  constructor
  · intro hsome
    rcases hc : mget gk.outdated_users_cache h with _ | m
    · rw [hc] at hsome
      simp at hsome
    · exact uouc_hit gk h cs m hc
  · intro hmiss
    refine ⟨uouc_miss_fst gk h cs hmiss, ?_, ?_⟩
    · intro hle
      have hgt : ¬ cs < (mset gk.outdated_users_cache h
          (get_outdated_users gk h)).length := by omega
      simp only [update_outdated_users_cache, hmiss, Option.isSome_none,
        Bool.false_eq_true, if_false, if_neg hgt]
    · intro hgt
      rcases hmin : listMin ((mset gk.outdated_users_cache h
          (get_outdated_users gk h)).map Prod.fst) with _ | first
      · exfalso
        rw [listMin_eq_none_iff] at hmin
        have hz := congrArg List.length hmin
        rw [List.length_map] at hz
        simp only [List.length_nil] at hz
        omega
      · refine ⟨first, listMin_mem hmin, listMin_le hmin, ?_, ?_, ?_⟩
        · simp only [update_outdated_users_cache, hmiss, Option.isSome_none,
            Bool.false_eq_true, if_false, if_pos hgt, hmin]
        · simp only [update_outdated_users_cache, hmiss, Option.isSome_none,
            Bool.false_eq_true, if_false, if_pos hgt, hmin]
        · intro uid
          simp only [update_outdated_users_cache, hmiss, Option.isSome_none,
            Bool.false_eq_true, if_false, if_pos hgt, hmin]
          exact mget_mdelAll gk.dbm _ uid

/-- Witness for C5: a two-entry cache at capacity 2 takes a new height 15
holding one outdated user; the lowest height 11 is evicted and its user 4 is
removed from the store. -/
theorem update_outdated_users_cache_spec_applied :
    mget (Gatekeeper.outdated_users_cache
      (⟨0, 21, 10, 5, [(3, ⟨21, 10, [(8, 1)]⟩)], [(11, [(4, [9])]), (12, [])],
        [(3, ⟨21, 10, [(8, 1)]⟩), (4, ⟨21, 3, []⟩)]⟩ : Gatekeeper)) 15 = none ∧
    (update_outdated_users_cache
      (⟨0, 21, 10, 5, [(3, ⟨21, 10, [(8, 1)]⟩)], [(11, [(4, [9])]), (12, [])],
        [(3, ⟨21, 10, [(8, 1)]⟩), (4, ⟨21, 3, []⟩)]⟩ : Gatekeeper) 15 2).1 =
      get_outdated_users
        (⟨0, 21, 10, 5, [(3, ⟨21, 10, [(8, 1)]⟩)], [(11, [(4, [9])]), (12, [])],
          [(3, ⟨21, 10, [(8, 1)]⟩), (4, ⟨21, 3, []⟩)]⟩ : Gatekeeper) 15 ∧
    (update_outdated_users_cache
      (⟨0, 21, 10, 5, [(3, ⟨21, 10, [(8, 1)]⟩)], [(11, [(4, [9])]), (12, [])],
        [(3, ⟨21, 10, [(8, 1)]⟩), (4, ⟨21, 3, []⟩)]⟩ : Gatekeeper) 15 2).2 =
      (⟨0, 21, 10, 5, [(3, ⟨21, 10, [(8, 1)]⟩)], [(12, []), (15, [(3, [8])])],
        [(3, ⟨21, 10, [(8, 1)]⟩)]⟩ : Gatekeeper) :=
  ⟨rfl,
    ((update_outdated_users_cache_spec
      (⟨0, 21, 10, 5, [(3, ⟨21, 10, [(8, 1)]⟩)], [(11, [(4, [9])]), (12, [])],
        [(3, ⟨21, 10, [(8, 1)]⟩), (4, ⟨21, 3, []⟩)]⟩ : Gatekeeper) 15 2).2 rfl).1,
    rfl⟩

/-- C7 counterexample: block_connected consults the outdated-users cache
first, and a stale cache entry at the queried height makes it remove nobody.
Populate the cache at height 15 while no user exists, then register user 7
(expiry 10, delta 5, so outdate height 10 + 5 = 15); block_connected at
height 15 leaves user 7 in registered_users although its
subscription_expiry + expiry_delta equals 15, refuting the claim. -/
theorem block_connected_stale_cache :
    mget ((block_connected (runTrace 1 10 (Gatekeeper.init 0 21 10 5)
        [Op.cacheUpd 15, Op.regUser 7]) 15 10).registered_users) 7 =
      some ⟨21, 10, []⟩ ∧
    (21 : Nat) ≤ u32MAX ∧
    (10 : Nat) + (block_connected (runTrace 1 10 (Gatekeeper.init 0 21 10 5)
        [Op.cacheUpd 15, Op.regUser 7]) 15 10).expiry_delta = 15 :=
  ⟨rfl, by decide, rfl⟩

/-- C7 (amended): provided the outdated-users cache has no entry at the
connected height (the normal chain-driven case, where each height is
processed exactly once), after block_connected no registered user has
subscription_expiry + expiry_delta (a u32 sum, assumed in range) equal to
that height. If a stale cache entry exists at the height the removal is
skipped, see the counterexample. -/
theorem block_connected_outdates_fresh (gk : Gatekeeper) (h cs : Nat) (uid : UserId)
    (info : UserInfo) (hmiss : mget gk.outdated_users_cache h = none)
    (hreg : mget ((block_connected gk h cs).registered_users) uid = some info)
    (hnof : info.subscription_expiry + gk.expiry_delta ≤ u32MAX) :
    info.subscription_expiry + gk.expiry_delta ≠ h := by
  intro hh
  simp only [block_connected] at hreg
  rw [(uouc_frame gk h cs).2.2.2.2, uouc_miss_fst gk h cs hmiss] at hreg
  have h2 := mget_some_of_mdelAll hreg
  apply h2.2
  simp only [get_outdated_users, hmiss]
  refine mem_keys_filterMap
    (fun info2 : UserInfo => h = (info2.subscription_expiry + gk.expiry_delta) % u32size)
    (fun info2 : UserInfo => info2.appointments.map Prod.fst) h2.1 ?_
  show h = (info.subscription_expiry + gk.expiry_delta) % u32size
  rw [Nat.mod_eq_of_lt (by simp only [u32MAX, u32size] at hnof ⊢; omega)]
  exact hh.symm

/-- Witness for the amended C7 theorem: with a fresh cache, a user whose
outdate height is 15 survives block_connected at height 16, and indeed
10 + 5 is not 16. -/
theorem block_connected_outdates_fresh_applied :
    mget (Gatekeeper.outdated_users_cache
      (⟨0, 21, 10, 5, [(7, ⟨21, 10, []⟩)], [], []⟩ : Gatekeeper)) 16 = none ∧
    mget ((block_connected (⟨0, 21, 10, 5, [(7, ⟨21, 10, []⟩)], [], []⟩ : Gatekeeper)
        16 10).registered_users) 7 = some ⟨21, 10, []⟩ ∧
    (10 : Nat) + 5 ≤ u32MAX ∧
    (10 : Nat) + 5 ≠ 16 :=
  ⟨rfl, rfl, by decide,
    block_connected_outdates_fresh
      (⟨0, 21, 10, 5, [(7, ⟨21, 10, []⟩)], [], []⟩ : Gatekeeper) 16 10 7
      ⟨21, 10, []⟩ rfl rfl (by decide)⟩
